import Mathlib

/-!
Verification of the tableau simplex implementation of the repository
(notebook functions `simplexTableau`, `pivoting`, `simplexAlgorithmTableau`).

The embedding is shallow: a tableau is a list of rows of rationals (exact
arithmetic stands in for the notebook's 64-bit floats), indices are naturals
(every index produced by the code comes from `np.argmax` / `np.argmin` and is
non-negative), Python exceptions become `Except String`, and `np.inf` entries
in the step list become `none` in `Option ℚ`.  The driver loop, which the
source runs without an iteration cap, is given explicit fuel; exhausting the
fuel yields `none`, every outcome the source can produce is `some`.
-/

attribute [local semireducible] Rat.mul Rat.inv Rat.add Rat.sub

abbrev Tableau := List (List ℚ)

/-- Number of columns, as numpy's `tableau.shape[1]` (length of the first row). -/
def ncols (t : Tableau) : ℕ := (t.headI).length

/-- Total entry access `tableau[i][j]` with default `0`; every claim constrains
the indices so that the default is never read. -/
def tget (t : Tableau) (i j : ℕ) : ℚ := (t.getD i []).getD j 0

/-- Rectangular matrix: every row has the same length as the first row. -/
def Rect (t : Tableau) : Prop := ∀ r ∈ t, r.length = ncols t

/-- Well-formed tableau as in the spec: at least 2 rows and 2 columns, rectangular. -/
def WF (t : Tableau) : Prop := 2 ≤ t.length ∧ 2 ≤ ncols t ∧ Rect t

instance : DecidablePred Rect := fun t =>
  inferInstanceAs (Decidable (∀ r ∈ t, r.length = ncols t))

instance : DecidablePred WF := fun _ => instDecidableAnd

/-- `np.finfo(float).eps`, machine epsilon of a 64-bit float. -/
def machEps : ℚ := 1 / 2 ^ 52

/-- The three outcomes of one simplex iteration.  The source encodes them as a
tuple `(p, q, opt, bounded)` with `None` entries; exactly the three
combinations below ever occur, so a sum type represents them faithfully. -/
inductive SimplexDecision where
  | Optimal : SimplexDecision
  | Unbounded : SimplexDecision
  | Pivot (p q : ℕ) : SimplexDecision
deriving DecidableEq

/-- `tableau[-1, :-1]`: the reduced-cost row (last row without the RHS entry). -/
def reducedCost (t : Tableau) : List ℚ := (t.getD (t.length - 1) []).dropLast

/-- `p = np.argmax(reducedCost < 0)`: on the branch where some entry is
negative, `argmax` of the boolean mask is the first index with a `True`,
i.e. the first index with a negative reduced cost. -/
def enteringCol (t : Tableau) : ℕ := (reducedCost t).findIdx (fun c => decide (c < 0))

/-- `xb = tableau[:-1, -1]`: last entry of every constraint row. -/
def xbCol (t : Tableau) : List ℚ := (t.dropLast).map (fun r => r.getD (r.length - 1) 0)

/-- `minusd = tableau[:-1, p]`: entry `p` of every constraint row. -/
def minusdCol (t : Tableau) (p : ℕ) : List ℚ := (t.dropLast).map (fun r => r.getD p 0)

/-- `steps = [xb[k] / minusd[k] if minusd[k] > 0 else np.inf for k in range(m)]`,
with `np.inf` rendered as `none`. -/
def stepList (t : Tableau) (p : ℕ) : List (Option ℚ) :=
  List.zipWith (fun x d => if 0 < d then some (x / d) else none) (xbCol t) (minusdCol t p)

/-- Strict comparison on step values, `none` playing the role of `np.inf`. -/
def oLt : Option ℚ → Option ℚ → Bool
  | none, _ => false
  | some _, none => true
  | some a, some b => decide (a < b)

/-- Minimum of a step list (`none` = `np.inf`; the empty list has minimum `none`). -/
def listMin : List (Option ℚ) → Option ℚ
  | [] => none
  | x :: xs => if oLt (listMin xs) x then listMin xs else x

/-- `np.argmin`: index of the first occurrence of the minimum (`0` on `[]`,
where numpy instead raises; the caller checks emptiness separately). -/
def argmin : List (Option ℚ) → ℕ
  | [] => 0
  | x :: xs => if oLt (listMin xs) x then argmin xs + 1 else 0

/-- The notebook's `simplexTableau`: one decision step of the simplex method.
`np.argmin` on an empty sequence raises, hence the `Except`. -/
def simplexTableau (t : Tableau) : Except String SimplexDecision :=
  if ((reducedCost t).any fun c => decide (c < 0)) = false then
    .ok .Optimal
  else if stepList t (enteringCol t) = [] then
    .error "attempt to get argmin of an empty sequence"
  else
    match (stepList t (enteringCol t)).getD (argmin (stepList t (enteringCol t))) none with
    | none => .ok .Unbounded
    | some _ => .ok (.Pivot (enteringCol t) (argmin (stepList t (enteringCol t))))

/-- The new tableau built by the notebook's `pivoting` once its checks pass:
row `q` is divided by the pivot, every other row `i` becomes
`tableau[i, :] - tableau[i][p] * thepivotrow / thepivot`. -/
def pivotResult (t : Tableau) (p q : ℕ) : Tableau :=
  (List.range t.length).map fun i =>
    if i = q then (t.getD q []).map (fun x => x / tget t q p)
    else
      List.zipWith (fun a b => a - (t.getD i []).getD p 0 * b / tget t q p)
        (t.getD i []) (t.getD q [])

/-- The notebook's `pivoting`: bounds checks against the full shape
(`q >= m`, `p >= n` with `m, n = tableau.shape`), a near-zero pivot check
against machine epsilon, then Gauss-Jordan elimination. -/
def pivoting (t : Tableau) (p q : ℕ) : Except String Tableau :=
  if t.length ≤ q then .error "The row of the pivot is out of range"
  else if ncols t ≤ p then .error "The column of the pivot is out of range"
  else if |tget t q p| < machEps then .error "The pivot is too close to zero"
  else .ok (pivotResult t p q)

/-- The notebook's `simplexAlgorithmTableau` driver loop, with explicit fuel:
`some (tableau, optimal, unbounded)` mirrors the source's return triple,
`none` means the fuel ran out before the loop ended. -/
def simplexAlgorithmTableau : ℕ → Tableau → Except String (Option (Tableau × Bool × Bool))
  | 0, _ => .ok none
  | fuel + 1, t =>
    match simplexTableau t with
    | .error e => .error e
    | .ok .Optimal => .ok (some (t, true, false))
    | .ok .Unbounded => .ok (some (t, false, true))
    | .ok (.Pivot p q) =>
      match pivoting t p q with
      | .error e => .error e
      | .ok t2 => simplexAlgorithmTableau fuel t2

/-- Tableau of the notebook's Exercise 1 (spec Scenario 1). -/
def scenarioOne : Tableau :=
  [[1, 2, 2, 1, 0, 0, 20],
   [2, 1, 2, 0, 1, 0, 20],
   [2, 2, 1, 0, 0, 1, 20],
   [-10, -12, -12, 0, 0, 0, 0]]

/-- Final tableau the algorithm reaches on `scenarioOne`. -/
def scenarioOneFinal : Tableau :=
  [[0, 0, 1, 2/5, 2/5, -3/5, 4],
   [1, 0, 0, -3/5, 2/5, 2/5, 4],
   [0, 1, 0, 2/5, -3/5, 2/5, 4],
   [0, 0, 0, 18/5, 8/5, 8/5, 136]]

/-- Tableau of the notebook's Exercise 3 (spec Scenario 2, unbounded). -/
def scenarioTwo : Tableau := [[1, 0, 1], [0, -2, -3]]

/-- Tableau of spec Scenario 3 (single decision step). -/
def scenarioThree : Tableau := [[1, -1, 1, 0, 2], [0, 2, -1, 1, 4], [0, -3, 2, 0, 4]]

/-- Tableau of spec Scenario 4 (already optimal). -/
def scenarioFour : Tableau :=
  [[1, 5, 3, 7, 0, 0], [0, 6, 9, 0, 1, 0], [0, 0, 3, 7, 0, 1]]

/-! ### Access helpers -/

theorem getD_of_lt {α : Type} (l : List α) (i : ℕ) (d : α) (h : i < l.length) :
    l.getD i d = l[i] := by
  simp [List.getD_eq_getElem?_getD, List.getElem?_eq_getElem h]

theorem rect_row_len {t : Tableau} (hr : Rect t) {i : ℕ} (hi : i < t.length) :
    (t.getD i []).length = ncols t := by
  rw [getD_of_lt t i [] hi]
  exact hr _ (List.getElem_mem hi)

theorem length_reducedCost {t : Tableau} (hr : Rect t) (ht : 0 < t.length) :
    (reducedCost t).length = ncols t - 1 := by
  have h1 : t.length - 1 < t.length := by omega
  rw [reducedCost, List.length_dropLast, rect_row_len hr h1]

theorem reducedCost_getD {t : Tableau} (hr : Rect t) (ht : 0 < t.length) {j : ℕ}
    (hj : j < ncols t - 1) :
    (reducedCost t).getD j 0 = tget t (t.length - 1) j := by
  have hlen : j < (reducedCost t).length := by rw [length_reducedCost hr ht]; exact hj
  have h1 : t.length - 1 < t.length := by omega
  have hrow : j < (t.getD (t.length - 1) []).length := by
    rw [rect_row_len hr h1]; omega
  rw [getD_of_lt _ j 0 hlen, tget, getD_of_lt _ j 0 hrow]
  simp [reducedCost, List.getElem_dropLast]

theorem length_minusdCol (t : Tableau) (p : ℕ) : (minusdCol t p).length = t.length - 1 := by
  simp [minusdCol]

theorem length_xbCol (t : Tableau) : (xbCol t).length = t.length - 1 := by
  simp [xbCol]

theorem minusdCol_getD {t : Tableau} (p : ℕ) {k : ℕ} (hk : k < t.length - 1) :
    (minusdCol t p).getD k 0 = tget t k p := by
  have h1 : k < (minusdCol t p).length := by rw [length_minusdCol]; exact hk
  have h3 : k < t.length := by omega
  rw [getD_of_lt _ k 0 h1, tget, getD_of_lt t k [] h3]
  simp [minusdCol, List.getElem_dropLast]

theorem xbCol_getD {t : Tableau} (hr : Rect t) {k : ℕ} (hk : k < t.length - 1) :
    (xbCol t).getD k 0 = tget t k (ncols t - 1) := by
  have h1 : k < (xbCol t).length := by rw [length_xbCol]; exact hk
  have h3 : k < t.length := by omega
  have hlen : t[k].length = ncols t := hr _ (List.getElem_mem h3)
  rw [getD_of_lt _ k 0 h1, tget, getD_of_lt t k [] h3]
  simp only [xbCol, List.getElem_map, List.getElem_dropLast]
  rw [hlen]

theorem length_stepList (t : Tableau) (p : ℕ) : (stepList t p).length = t.length - 1 := by
  simp [stepList, length_xbCol, length_minusdCol]

theorem stepList_getD {t : Tableau} (hr : Rect t) (p : ℕ) {k : ℕ} (hk : k < t.length - 1) :
    (stepList t p).getD k none =
      if 0 < tget t k p then some (tget t k (ncols t - 1) / tget t k p) else none := by
  have h1 : k < (stepList t p).length := by rw [length_stepList]; exact hk
  have hx : k < (xbCol t).length := by rw [length_xbCol]; exact hk
  have hd : k < (minusdCol t p).length := by rw [length_minusdCol]; exact hk
  have hxv : (xbCol t)[k] = tget t k (ncols t - 1) := by
    rw [← getD_of_lt _ k 0 hx]; exact xbCol_getD hr hk
  have hdv : (minusdCol t p)[k] = tget t k p := by
    rw [← getD_of_lt _ k 0 hd]; exact minusdCol_getD p hk
  rw [getD_of_lt _ k none h1]
  simp only [stepList, List.getElem_zipWith]
  rw [hxv, hdv]

/-! ### The argmin theory

`Option ℚ` with `none` as `np.inf` is order-isomorphic to `WithTop ℚ`; the
embedding below lets the linear-order lemmas of `WithTop` do the work. -/

/-- Reading a step value as an element of `WithTop ℚ` (`none` = `∞`). -/
def tw : Option ℚ → WithTop ℚ
  | none => ⊤
  | some a => (a : WithTop ℚ)

theorem oLt_iff (a b : Option ℚ) : oLt a b = true ↔ tw a < tw b := by
  cases a <;> cases b <;>
    simp [oLt, tw, WithTop.coe_lt_top, WithTop.coe_lt_coe, lt_irrefl, not_top_lt]

theorem oLt_eq_false_iff (a b : Option ℚ) : oLt a b = false ↔ tw b ≤ tw a := by
  rw [← Bool.not_eq_true, oLt_iff, not_lt]

theorem listMin_le (l : List (Option ℚ)) {k : ℕ} (hk : k < l.length) :
    tw (listMin l) ≤ tw (l.getD k none) := by
  induction l generalizing k with
  | nil => simp at hk
  | cons x xs ih =>
    rw [listMin]
    cases k with
    | zero =>
      simp only [List.getD_cons_zero]
      split
      case isTrue h => exact le_of_lt ((oLt_iff _ _).mp h)
      case isFalse h => exact le_refl _
    | succ k =>
      have hk2 : k < xs.length := by simpa using hk
      simp only [List.getD_cons_succ]
      split
      case isTrue h => exact ih hk2
      case isFalse h =>
        exact le_trans ((oLt_eq_false_iff _ _).mp (Bool.eq_false_iff.mpr h)) (ih hk2)

theorem argmin_lt_length (l : List (Option ℚ)) (h : l ≠ []) : argmin l < l.length := by
  induction l with
  | nil => exact absurd rfl h
  | cons x xs ih =>
    rw [argmin]
    split
    case isTrue hlt =>
      have hne : xs ≠ [] := by
        intro he
        rw [he] at hlt
        simp [listMin, oLt] at hlt
      have := ih hne
      simp only [List.length_cons]
      omega
    case isFalse hlt => simp

theorem getD_argmin (l : List (Option ℚ)) (h : l ≠ []) :
    l.getD (argmin l) none = listMin l := by
  induction l with
  | nil => exact absurd rfl h
  | cons x xs ih =>
    rw [argmin, listMin]
    split
    case isTrue hlt =>
      have hne : xs ≠ [] := by
        intro he
        rw [he] at hlt
        simp [listMin, oLt] at hlt
      simp only [List.getD_cons_succ]
      exact ih hne
    case isFalse hlt => simp

theorem lt_getD_of_lt_argmin (l : List (Option ℚ)) {k : ℕ} (hk : k < argmin l) :
    tw (listMin l) < tw (l.getD k none) := by
  induction l generalizing k with
  | nil => simp [argmin] at hk
  | cons x xs ih =>
    rw [argmin] at hk
    rw [listMin]
    split at hk
    case isTrue hlt =>
      rw [if_pos hlt]
      cases k with
      | zero => simpa using (oLt_iff _ _).mp hlt
      | succ k =>
        have hk2 : k < argmin xs := by omega
        simpa using ih hk2
    case isFalse hlt => omega

theorem listMin_eq_none_iff (l : List (Option ℚ)) :
    listMin l = none ↔ ∀ x ∈ l, x = none := by
  induction l with
  | nil => simp [listMin]
  | cons x xs ih =>
    rw [listMin]
    constructor
    · intro h
      split at h
      case isTrue hlt =>
        rw [h] at hlt
        simp [oLt] at hlt
      case isFalse hlt =>
        subst h
        have hxs : listMin xs = none := by
          cases hmin : listMin xs with
          | none => rfl
          | some v =>
            rw [hmin] at hlt
            simp [oLt] at hlt
        intro y hy
        rcases List.mem_cons.mp hy with h1 | h2
        · exact h1
        · exact ih.mp hxs y h2
    · intro h
      have hx : x = none := h x (List.mem_cons_self x xs)
      have hxs : listMin xs = none := ih.mpr (fun y hy => h y (List.mem_cons_of_mem x hy))
      rw [hx, hxs]
      simp [oLt]

/-! ### Structure of the pivoted tableau -/

theorem tget_def (t : Tableau) (i j : ℕ) : tget t i j = (t.getD i []).getD j 0 := rfl

theorem length_pivotResult (t : Tableau) (p q : ℕ) :
    (pivotResult t p q).length = t.length := by
  simp [pivotResult]

theorem pivotResult_row {t : Tableau} {p q i : ℕ} (hi : i < t.length) :
    (pivotResult t p q).getD i [] =
      if i = q then (t.getD q []).map (fun x => x / tget t q p)
      else
        List.zipWith (fun a b => a - (t.getD i []).getD p 0 * b / tget t q p)
          (t.getD i []) (t.getD q []) := by
  have h1 : i < (pivotResult t p q).length := by rw [length_pivotResult]; exact hi
  rw [getD_of_lt _ i [] h1]
  simp [pivotResult]

theorem pivotResult_row_len {t : Tableau} {p q i : ℕ} (hr : Rect t) (hq : q < t.length)
    (hi : i < t.length) :
    ((pivotResult t p q).getD i []).length = ncols t := by
  rw [pivotResult_row hi]
  split
  · rw [List.length_map, rect_row_len hr hq]
  · rw [List.length_zipWith, rect_row_len hr hq, rect_row_len hr hi, min_self]

theorem ncols_eq_row_zero (t : Tableau) (h : 0 < t.length) :
    ncols t = (t.getD 0 []).length := by
  cases t with
  | nil => simp at h
  | cons r rs => rfl

theorem ncols_pivotResult {t : Tableau} {p q : ℕ} (hr : Rect t) (hq : q < t.length) :
    ncols (pivotResult t p q) = ncols t := by
  have h0 : 0 < t.length := Nat.lt_of_le_of_lt (Nat.zero_le q) hq
  have h1 : 0 < (pivotResult t p q).length := by rw [length_pivotResult]; exact h0
  rw [ncols_eq_row_zero _ h1, pivotResult_row_len hr hq h0]

theorem rect_pivotResult {t : Tableau} {p q : ℕ} (hr : Rect t) (hq : q < t.length) :
    Rect (pivotResult t p q) := by
  intro r hmem
  obtain ⟨i, hi, hget⟩ := List.getElem_of_mem hmem
  rw [length_pivotResult] at hi
  rw [ncols_pivotResult hr hq, ← hget, ← getD_of_lt _ i []
    (by rw [length_pivotResult]; exact hi)]
  exact pivotResult_row_len hr hq hi

theorem tget_pivotResult {t : Tableau} {p q i j : ℕ} (hr : Rect t) (hq : q < t.length)
    (hi : i < t.length) (hj : j < ncols t) :
    tget (pivotResult t p q) i j =
      if i = q then tget t q j / tget t q p
      else tget t i j - tget t i p * tget t q j / tget t q p := by
  have hrq : j < (t.getD q []).length := by rw [rect_row_len hr hq]; exact hj
  have hri : j < (t.getD i []).length := by rw [rect_row_len hr hi]; exact hj
  rw [tget_def (pivotResult t p q) i j, pivotResult_row hi]
  split
  case isTrue h =>
    subst h
    have hm : j < ((t.getD i []).map (fun x => x / tget t i p)).length := by
      simpa using hrq
    rw [getD_of_lt _ j 0 hm]
    simp only [List.getElem_map]
    rw [tget_def t i j, getD_of_lt _ j 0 hrq]
  case isFalse h =>
    have hz : j < (List.zipWith (fun a b => a - (t.getD i []).getD p 0 * b / tget t q p)
        (t.getD i []) (t.getD q [])).length := by
      simp only [List.length_zipWith]
      omega
    rw [getD_of_lt _ j 0 hz]
    simp only [List.getElem_zipWith]
    rw [tget_def t i j, tget_def t q j, tget_def t i p,
      getD_of_lt _ j 0 hri, getD_of_lt _ j 0 hrq]

theorem tget_pivotResult_pivotCol {t : Tableau} {p q i : ℕ} (hr : Rect t) (hq : q < t.length)
    (hp : p < ncols t) (hnz : tget t q p ≠ 0) (hi : i < t.length) :
    tget (pivotResult t p q) i p = if i = q then 1 else 0 := by
  rw [tget_pivotResult hr hq hi hp]
  split
  case isTrue h => subst h; exact div_self hnz
  case isFalse h => rw [mul_div_assoc, div_self hnz, mul_one, sub_self]

/-! ### Inversion of the pivoting checks -/

theorem pivoting_ok_inv {t : Tableau} {p q : ℕ} {t2 : Tableau}
    (h : pivoting t p q = .ok t2) :
    q < t.length ∧ p < ncols t ∧ machEps ≤ |tget t q p| ∧ t2 = pivotResult t p q := by
  unfold pivoting at h
  by_cases h1 : t.length ≤ q
  · rw [if_pos h1] at h; exact Except.noConfusion h
  rw [if_neg h1] at h
  by_cases h2 : ncols t ≤ p
  · rw [if_pos h2] at h; exact Except.noConfusion h
  rw [if_neg h2] at h
  by_cases h3 : |tget t q p| < machEps
  · rw [if_pos h3] at h; exact Except.noConfusion h
  rw [if_neg h3] at h
  exact ⟨by omega, by omega, not_lt.mp h3, (Except.ok.inj h).symm⟩

theorem pivoting_eq_ok {t : Tableau} {p q : ℕ} (hq : q < t.length) (hp : p < ncols t)
    (he : machEps ≤ |tget t q p|) :
    pivoting t p q = .ok (pivotResult t p q) := by
  unfold pivoting
  rw [if_neg (by omega), if_neg (by omega), if_neg (not_lt.mpr he)]

theorem pivoting_shape {t : Tableau} {p q : ℕ} {t2 : Tableau} (hr : Rect t)
    (h : pivoting t p q = .ok t2) :
    t2.length = t.length ∧ ncols t2 = ncols t ∧ Rect t2 := by
  obtain ⟨hq, hp, he, ht2⟩ := pivoting_ok_inv h
  subst ht2
  exact ⟨length_pivotResult t p q, ncols_pivotResult hr hq, rect_pivotResult hr hq⟩

theorem pivoting_WF {t : Tableau} {p q : ℕ} {t2 : Tableau} (hw : WF t)
    (h : pivoting t p q = .ok t2) : WF t2 := by
  obtain ⟨hm, hn, hrect⟩ := hw
  obtain ⟨hl, hc, hr2⟩ := pivoting_shape hrect h
  exact ⟨by omega, by omega, hr2⟩

/-! ### Inversion of the decision step -/

theorem simplexTableau_optimal_iff (t : Tableau) :
    simplexTableau t = .ok .Optimal ↔ ∀ c ∈ reducedCost t, 0 ≤ c := by
  unfold simplexTableau
  by_cases hany : ((reducedCost t).any fun c => decide (c < 0)) = false
  · rw [if_pos hany]
    simp only [List.any_eq_false, decide_eq_true_eq, not_lt] at hany
    exact ⟨fun _ => hany, fun _ => rfl⟩
  · rw [if_neg hany]
    constructor
    · intro h
      exfalso
      by_cases hs : stepList t (enteringCol t) = []
      · rw [if_pos hs] at h
        exact Except.noConfusion h
      · rw [if_neg hs] at h
        rcases hg : (stepList t (enteringCol t)).getD
            (argmin (stepList t (enteringCol t))) none with _ | v <;>
          rw [hg] at h <;> exact SimplexDecision.noConfusion (Except.ok.inj h)
    · intro h
      exfalso
      apply hany
      simp only [List.any_eq_false, decide_eq_true_eq, not_lt]
      exact h

theorem simplexTableau_pivot_inv {t : Tableau} {p q : ℕ}
    (h : simplexTableau t = .ok (.Pivot p q)) :
    p = enteringCol t ∧ q = argmin (stepList t p) ∧ stepList t p ≠ [] ∧
      (∃ v, (stepList t p).getD q none = some v) ∧
      ((reducedCost t).any fun c => decide (c < 0)) = true := by
  unfold simplexTableau at h
  by_cases hany : ((reducedCost t).any fun c => decide (c < 0)) = false
  · rw [if_pos hany] at h
    exact absurd (Except.ok.inj h) (by intro hc; cases hc)
  rw [if_neg hany] at h
  by_cases hs : stepList t (enteringCol t) = []
  · rw [if_pos hs] at h
    exact Except.noConfusion h
  rw [if_neg hs] at h
  rcases hg : (stepList t (enteringCol t)).getD
      (argmin (stepList t (enteringCol t))) none with _ | v <;> rw [hg] at h
  · exact absurd (Except.ok.inj h) (by intro hc; cases hc)
  · obtain ⟨hp, hq⟩ := SimplexDecision.Pivot.inj (Except.ok.inj h).symm
    subst hp
    subst hq
    exact ⟨rfl, rfl, hs, ⟨v, hg⟩, Bool.not_eq_false _ |>.mp hany⟩

theorem simplexTableau_unbounded_inv {t : Tableau}
    (h : simplexTableau t = .ok .Unbounded) :
    ((reducedCost t).any fun c => decide (c < 0)) = true ∧
      stepList t (enteringCol t) ≠ [] ∧
      (stepList t (enteringCol t)).getD (argmin (stepList t (enteringCol t))) none = none := by
  unfold simplexTableau at h
  by_cases hany : ((reducedCost t).any fun c => decide (c < 0)) = false
  · rw [if_pos hany] at h
    exact absurd (Except.ok.inj h) (by intro hc; cases hc)
  rw [if_neg hany] at h
  by_cases hs : stepList t (enteringCol t) = []
  · rw [if_pos hs] at h
    exact Except.noConfusion h
  rw [if_neg hs] at h
  rcases hg : (stepList t (enteringCol t)).getD
      (argmin (stepList t (enteringCol t))) none with _ | v <;> rw [hg] at h
  · exact ⟨Bool.not_eq_false _ |>.mp hany, hs, rfl⟩
  · exact absurd (Except.ok.inj h) (by intro hc; cases hc)

/-! ### Inversion of the driver loop -/

theorem driver_optimal_inv {fuel : ℕ} {t tf : Tableau}
    (h : simplexAlgorithmTableau fuel t = .ok (some (tf, true, false))) :
    simplexTableau tf = .ok .Optimal ∧ (WF t → WF tf) := by
  induction fuel generalizing t with
  | zero =>
    rw [simplexAlgorithmTableau] at h
    exact absurd (Except.ok.inj h) (by intro hc; cases hc)
  | succ n ih =>
    rw [simplexAlgorithmTableau] at h
    cases hs : simplexTableau t with
    | error e => rw [hs] at h; exact Except.noConfusion h
    | ok d =>
      rw [hs] at h
      cases d with
      | Optimal =>
        have := Except.ok.inj h
        have hT : t = tf := congrArg Prod.fst (Option.some.inj this)
        subst hT
        exact ⟨hs, fun hw => hw⟩
      | Unbounded =>
        have := Option.some.inj (Except.ok.inj h)
        exact absurd (congrArg (fun x => x.2.1) this) (by intro hc; cases hc)
      | Pivot p q =>
        have h2 : (match pivoting t p q with
            | Except.error e => Except.error e
            | Except.ok t2 => simplexAlgorithmTableau n t2) =
            Except.ok (some (tf, true, false)) := h
        cases hp : pivoting t p q with
        | error e => rw [hp] at h2; exact Except.noConfusion h2
        | ok t2 =>
          rw [hp] at h2
          obtain ⟨hopt, hwf⟩ := ih h2
          exact ⟨hopt, fun hw => hwf (pivoting_WF hw hp)⟩

theorem driver_unbounded_inv {fuel : ℕ} {t tf : Tableau}
    (h : simplexAlgorithmTableau fuel t = .ok (some (tf, false, true))) :
    simplexTableau tf = .ok .Unbounded ∧ (WF t → WF tf) := by
  induction fuel generalizing t with
  | zero =>
    rw [simplexAlgorithmTableau] at h
    exact absurd (Except.ok.inj h) (by intro hc; cases hc)
  | succ n ih =>
    rw [simplexAlgorithmTableau] at h
    cases hs : simplexTableau t with
    | error e => rw [hs] at h; exact Except.noConfusion h
    | ok d =>
      rw [hs] at h
      cases d with
      | Optimal =>
        have := Option.some.inj (Except.ok.inj h)
        exact absurd (congrArg (fun x => x.2.1) this) (by intro hc; cases hc)
      | Unbounded =>
        have := Except.ok.inj h
        have hT : t = tf := congrArg Prod.fst (Option.some.inj this)
        subst hT
        exact ⟨hs, fun hw => hw⟩
      | Pivot p q =>
        have h2 : (match pivoting t p q with
            | Except.error e => Except.error e
            | Except.ok t2 => simplexAlgorithmTableau n t2) =
            Except.ok (some (tf, false, true)) := h
        cases hp : pivoting t p q with
        | error e => rw [hp] at h2; exact Except.noConfusion h2
        | ok t2 =>
          rw [hp] at h2
          obtain ⟨hunb, hwf⟩ := ih h2
          exact ⟨hunb, fun hw => hwf (pivoting_WF hw hp)⟩

/-! ### Claim theorems -/

/-- C1: when `runSimplex` returns with status Optimal, the tableau it returns is
the final iteration's tableau unchanged (the decision step still reports
`Optimal` on it) and every reduced cost of its last row, excluding the RHS
column, is nonnegative. -/
theorem simplex_optimal_certificate (fuel : ℕ) (t tf : Tableau)
    (h : simplexAlgorithmTableau fuel t = .ok (some (tf, true, false))) :
    simplexTableau tf = .ok .Optimal ∧ ∀ c ∈ reducedCost tf, 0 ≤ c := by
  have hopt := (driver_optimal_inv h).1
  exact ⟨hopt, (simplexTableau_optimal_iff tf).mp hopt⟩

theorem simplex_optimal_certificate_witness :
    simplexTableau scenarioFour = .ok .Optimal ∧ ∀ c ∈ reducedCost scenarioFour, 0 ≤ c :=
  simplex_optimal_certificate 1 scenarioFour scenarioFour (by rfl)

/-- C6 counterexample: the claim says a pivot row/column outside the constraint
rows `[0, m)` and variable columns `[0, n)` is rejected, but the code only
checks against the full shape: pivoting in the objective row (row 1 of a 2-row
tableau) on the RHS column (column 1 of 2) succeeds. -/
theorem pivot_objective_row_allowed :
    pivoting [[(2 : ℚ), 0], [0, 3]] 1 1 = .ok [[2, 0], [0, 1]] := by rfl

/-- C6 amended: `pivoting` fails exactly when the (natural-number) row index
reaches the total row count `m + 1`, or the column index reaches the total
column count `n + 1`, or the pivot magnitude is below machine epsilon; the
objective row and the RHS column are accepted as pivot positions. -/
theorem pivot_range_check_actual (t : Tableau) (p q : ℕ) :
    (∃ e, pivoting t p q = .error e) ↔
      t.length ≤ q ∨ ncols t ≤ p ∨ |tget t q p| < machEps := by
  unfold pivoting
  by_cases h1 : t.length ≤ q
  · rw [if_pos h1]; simp [h1]
  rw [if_neg h1]
  by_cases h2 : ncols t ≤ p
  · rw [if_pos h2]; simp [h1, h2]
  rw [if_neg h2]
  by_cases h3 : |tget t q p| < machEps
  · rw [if_pos h3]; simp [h1, h2, h3]
  · rw [if_neg h3]; simp [h1, h2, h3]

/-- C7 counterexample: a 1-by-1 matrix is not rejected by any entry point;
`simplexTableau` returns a decision, `pivoting` a pivoted tableau, and the
driver a normal optimal outcome. -/
theorem one_by_one_accepted :
    simplexTableau [[(5 : ℚ)]] = .ok .Optimal ∧
      pivoting [[(5 : ℚ)]] 0 0 = .ok [[1]] ∧
      simplexAlgorithmTableau 1 [[(5 : ℚ)]] = .ok (some ([[(5 : ℚ)]], true, false)) :=
  ⟨rfl, rfl, rfl⟩

/-- C7 amended: no minimum-size validation exists and the computation is
entered directly.  Every 1-by-1 matrix `[[a]]` completes normally in all three
entry points (the pivot path needs only the near-zero pivot check to pass);
the one failure an undersized input can produce is from the computation
itself — on a 1-row matrix with a negative reduced cost the step list is
empty and `np.argmin` raises — never an up-front size rejection. -/
theorem no_size_validation :
    (∀ a : ℚ, simplexTableau [[a]] = .ok .Optimal ∧
        simplexAlgorithmTableau 1 [[a]] = .ok (some ([[a]], true, false))) ∧
      (∀ a : ℚ, machEps ≤ |a| → ∃ t2, pivoting [[a]] 0 0 = .ok t2) ∧
      ∀ a b : ℚ, a < 0 →
        simplexTableau [[a, b]] = .error "attempt to get argmin of an empty sequence" := by
  refine ⟨?_, ?_, ?_⟩
  · intro a
    exact ⟨rfl, rfl⟩
  · intro a ha
    refine ⟨pivotResult [[a]] 0 0, pivoting_eq_ok ?_ ?_ ?_⟩
    · simp
    · simp [ncols]
    · simpa [tget] using ha
  · intro a b ha
    have hempty : stepList [[a, b]] (enteringCol [[a, b]]) = [] := rfl
    unfold simplexTableau
    rw [if_neg (by simp [reducedCost, ha]), if_pos hempty]

theorem no_size_validation_witness :
    (machEps ≤ |(5 : ℚ)| ∧ ∃ t2, pivoting [[(5 : ℚ)]] 0 0 = .ok t2) ∧
      (-1 : ℚ) < 0 ∧
        simplexTableau [[(-1 : ℚ), 0]] =
          .error "attempt to get argmin of an empty sequence" :=
  ⟨⟨by decide, no_size_validation.2.1 5 (by decide)⟩,
    by decide, no_size_validation.2.2 (-1) 0 (by decide)⟩

/-- C8: on the Scenario 1 tableau the driver terminates with status Optimal and
objective entry 136 in row 3, last column; on the Scenario 2 tableau it
terminates with status Unbounded. -/
theorem scenario_runs :
    simplexAlgorithmTableau 10 scenarioOne = .ok (some (scenarioOneFinal, true, false)) ∧
      tget scenarioOneFinal 3 6 = 136 ∧
      simplexAlgorithmTableau 10 scenarioTwo = .ok (some (scenarioTwo, false, true)) :=
  ⟨rfl, rfl, rfl⟩

/-- C2: on a well-formed tableau with a negative reduced cost, the entering
column is the first (smallest-index) column with a strictly negative reduced
cost, compared exactly against 0; any `Pivot` decision carries that column. -/
theorem entering_column_first_negative (t : Tableau) (hw : WF t)
    (hneg : ∃ c ∈ reducedCost t, c < 0) :
    enteringCol t < ncols t - 1 ∧
      tget t (t.length - 1) (enteringCol t) < 0 ∧
      (∀ j < enteringCol t, 0 ≤ tget t (t.length - 1) j) ∧
      ∀ p q, simplexTableau t = .ok (.Pivot p q) → p = enteringCol t := by
  obtain ⟨hm, hn, hr⟩ := hw
  have ht : 0 < t.length := by omega
  have hex : ∃ c ∈ reducedCost t, (fun c => decide (c < 0)) c = true := by
    obtain ⟨c, hc, hcn⟩ := hneg
    exact ⟨c, hc, by simpa using hcn⟩
  have hlt : enteringCol t < (reducedCost t).length :=
    List.findIdx_lt_length_of_exists hex
  have hlen := length_reducedCost hr ht
  have hcol : enteringCol t < ncols t - 1 := by rw [← hlen]; exact hlt
  refine ⟨hcol, ?_, ?_, ?_⟩
  · have hval0 : decide ((reducedCost t)[enteringCol t] < 0) = true :=
      @List.findIdx_getElem _ (fun c => decide (c < 0)) (reducedCost t) hlt
    rw [← reducedCost_getD hr ht hcol, getD_of_lt _ _ 0 hlt]
    simpa using hval0
  · intro j hj
    have hjlen : j < (reducedCost t).length := lt_trans hj hlt
    have hjn : j < ncols t - 1 := hlen ▸ hjlen
    have h3 := List.not_of_lt_findIdx hj
    rw [← reducedCost_getD hr ht hjn, getD_of_lt _ j 0 hjlen]
    simpa [not_lt] using h3
  · intro p q hpq
    exact (simplexTableau_pivot_inv hpq).1

theorem entering_column_first_negative_witness :
    enteringCol scenarioThree < ncols scenarioThree - 1 ∧
      tget scenarioThree (scenarioThree.length - 1) (enteringCol scenarioThree) < 0 ∧
      (∀ j < enteringCol scenarioThree,
        0 ≤ tget scenarioThree (scenarioThree.length - 1) j) ∧
      ∀ p q, simplexTableau scenarioThree = .ok (.Pivot p q) →
        p = enteringCol scenarioThree :=
  entering_column_first_negative scenarioThree (by decide) (by decide)

/-- The characterization behind the spec's unboundedness certificate. -/
theorem simplexTableau_unbounded_iff (t : Tableau) (hw : WF t) :
    simplexTableau t = .ok .Unbounded ↔
      (∃ c ∈ reducedCost t, c < 0) ∧
        ∀ k < t.length - 1, tget t k (enteringCol t) ≤ 0 := by
  obtain ⟨hm, hn, hr⟩ := hw
  have hlen := length_stepList t (enteringCol t)
  have hsne : stepList t (enteringCol t) ≠ [] := by
    have hpos : 0 < (stepList t (enteringCol t)).length := by rw [hlen]; omega
    exact List.length_pos.mp hpos
  constructor
  · intro h
    obtain ⟨hany, _, hnone⟩ := simplexTableau_unbounded_inv h
    constructor
    · obtain ⟨c, hc, hcd⟩ := List.any_eq_true.mp hany
      exact ⟨c, hc, by simpa using hcd⟩
    · intro k hk
      have hk1 : k < (stepList t (enteringCol t)).length := by rw [hlen]; exact hk
      have hminnone : listMin (stepList t (enteringCol t)) = none := by
        rw [← getD_argmin _ hsne]; exact hnone
      have hallnone := (listMin_eq_none_iff _).mp hminnone
      have hknone : (stepList t (enteringCol t)).getD k none = none := by
        rw [getD_of_lt _ k none hk1]
        exact hallnone _ (List.getElem_mem hk1)
      rw [stepList_getD hr _ hk] at hknone
      by_cases hpos : 0 < tget t k (enteringCol t)
      · rw [if_pos hpos] at hknone
        exact Option.noConfusion hknone
      · exact not_lt.mp hpos
  · rintro ⟨⟨c, hc, hcneg⟩, hall⟩
    have hany : ((reducedCost t).any fun c => decide (c < 0)) = true :=
      List.any_eq_true.mpr ⟨c, hc, by simpa using hcneg⟩
    have hminnone : listMin (stepList t (enteringCol t)) = none := by
      apply (listMin_eq_none_iff _).mpr
      intro x hx
      obtain ⟨k, hk1, hget⟩ := List.getElem_of_mem hx
      have hk : k < t.length - 1 := by rw [← hlen]; exact hk1
      rw [← hget, ← getD_of_lt _ k none hk1, stepList_getD hr _ hk,
        if_neg (not_lt.mpr (hall k hk))]
    unfold simplexTableau
    rw [if_neg (by simp [hany]), if_neg hsne]
    have hg : (stepList t (enteringCol t)).getD
        (argmin (stepList t (enteringCol t))) none = none := by
      rw [getD_argmin _ hsne, hminnone]
    rw [hg]

/-- C4: `selectPivot` answers Unbounded exactly when a negative reduced cost
exists and the chosen entering column has no strictly positive entry in any
constraint row; and whenever the driver ends Unbounded, the returned tableau
still has that property. -/
theorem unbounded_characterization :
    (∀ t, WF t → (simplexTableau t = .ok .Unbounded ↔
        (∃ c ∈ reducedCost t, c < 0) ∧
          ∀ k < t.length - 1, tget t k (enteringCol t) ≤ 0)) ∧
      ∀ fuel t tf, WF t →
        simplexAlgorithmTableau fuel t = .ok (some (tf, false, true)) →
        simplexTableau tf = .ok .Unbounded ∧
          (∃ c ∈ reducedCost tf, c < 0) ∧
            ∀ k < tf.length - 1, tget tf k (enteringCol tf) ≤ 0 := by
  constructor
  · exact simplexTableau_unbounded_iff
  · intro fuel t tf hw h
    obtain ⟨hu, hwf⟩ := driver_unbounded_inv h
    exact ⟨hu, (simplexTableau_unbounded_iff tf (hwf hw)).mp hu⟩

theorem unbounded_characterization_witness :
    WF scenarioTwo ∧
      (simplexTableau scenarioTwo = .ok .Unbounded ∧
        (∃ c ∈ reducedCost scenarioTwo, c < 0) ∧
          ∀ k < scenarioTwo.length - 1, tget scenarioTwo k (enteringCol scenarioTwo) ≤ 0) :=
  ⟨by decide, unbounded_characterization.2 1 scenarioTwo scenarioTwo (by decide) (by rfl)⟩

/-- C3: whenever `selectPivot` chooses a pivot `(p, q)`, the leaving row `q`
has a strictly positive entry in column `p`, minimizes the ratio
`RHS / entry` over exactly the rows with a strictly positive entry, and under
ties is the smallest such row index; on the Scenario 3 tableau the decision is
`Pivot` at column 1, row 1 (zero-based). -/
theorem leaving_row_min_first :
    (∀ t p q, WF t → simplexTableau t = .ok (.Pivot p q) →
      q < t.length - 1 ∧ 0 < tget t q p ∧
        (∀ k < t.length - 1, 0 < tget t k p →
          tget t q (ncols t - 1) / tget t q p ≤ tget t k (ncols t - 1) / tget t k p) ∧
        ∀ k < q, 0 < tget t k p →
          tget t q (ncols t - 1) / tget t q p < tget t k (ncols t - 1) / tget t k p) ∧
      simplexTableau scenarioThree = .ok (.Pivot 1 1) := by
  constructor
  · intro t p q hw h
    obtain ⟨hm, hn, hr⟩ := hw
    obtain ⟨hpE, hqA, hsne, ⟨v, hv⟩, hany⟩ := simplexTableau_pivot_inv h
    subst hqA
    have hlen := length_stepList t p
    have hqlt : argmin (stepList t p) < t.length - 1 := by
      rw [← hlen]; exact argmin_lt_length _ hsne
    have hstep := stepList_getD hr p hqlt
    rw [hv] at hstep
    by_cases hpos : 0 < tget t (argmin (stepList t p)) p
    swap
    · rw [if_neg hpos] at hstep
      exact Option.noConfusion hstep
    rw [if_pos hpos] at hstep
    have hvq : v = tget t (argmin (stepList t p)) (ncols t - 1) /
        tget t (argmin (stepList t p)) p := Option.some.inj hstep
    have hminv : listMin (stepList t p) = some v := by
      rw [← getD_argmin _ hsne]; exact hv
    refine ⟨hqlt, hpos, ?_, ?_⟩
    · intro k hk hkpos
      have hk1 : k < (stepList t p).length := by rw [hlen]; exact hk
      have hle := listMin_le (stepList t p) hk1
      rw [hminv, getD_of_lt _ k none hk1, ← getD_of_lt _ k none hk1,
        stepList_getD hr p hk, if_pos hkpos] at hle
      rw [← hvq]
      simpa [tw] using hle
    · intro k hk hkpos
      have hkm : k < t.length - 1 := lt_trans hk hqlt
      have hlt2 := lt_getD_of_lt_argmin (stepList t p) hk
      rw [hminv, stepList_getD hr p hkm, if_pos hkpos] at hlt2
      rw [← hvq]
      simpa [tw] using hlt2
  · rfl

theorem leaving_row_min_first_witness :
    WF scenarioThree ∧
      (1 < scenarioThree.length - 1 ∧ 0 < tget scenarioThree 1 1 ∧
        (∀ k < scenarioThree.length - 1, 0 < tget scenarioThree k 1 →
          tget scenarioThree 1 (ncols scenarioThree - 1) / tget scenarioThree 1 1 ≤
            tget scenarioThree k (ncols scenarioThree - 1) / tget scenarioThree k 1) ∧
        ∀ k < 1, 0 < tget scenarioThree k 1 →
          tget scenarioThree 1 (ncols scenarioThree - 1) / tget scenarioThree 1 1 <
            tget scenarioThree k (ncols scenarioThree - 1) / tget scenarioThree k 1) :=
  ⟨by decide, leaving_row_min_first.1 scenarioThree 1 1 (by decide) leaving_row_min_first.2⟩

/-- C5: a successful pivot (in-range indices, pivot not near zero) makes the
pivot column the unit basis vector, divides the pivot row elementwise by the
pivot value, and subtracts from every other row its column-`p` entry times the
normalized pivot row. -/
theorem pivot_unit_column (t : Tableau) (p q : ℕ) (t2 : Tableau) (hr : Rect t)
    (h : pivoting t p q = .ok t2) :
    (∀ i < t.length, tget t2 i p = if i = q then 1 else 0) ∧
      (∀ j < ncols t, tget t2 q j = tget t q j / tget t q p) ∧
      ∀ i < t.length, i ≠ q → ∀ j < ncols t,
        tget t2 i j = tget t i j - tget t i p * (tget t q j / tget t q p) := by
  obtain ⟨hq, hp, he, ht2⟩ := pivoting_ok_inv h
  subst ht2
  have hnz : tget t q p ≠ 0 := by
    intro h0
    rw [h0] at he
    norm_num [machEps] at he
  refine ⟨?_, ?_, ?_⟩
  · intro i hi
    exact tget_pivotResult_pivotCol hr hq hp hnz hi
  · intro j hj
    rw [tget_pivotResult hr hq hq hj, if_pos rfl]
  · intro i hi hne j hj
    rw [tget_pivotResult hr hq hi hj, if_neg hne, mul_div_assoc]

/-- Concrete 2-by-2 tableau used to instantiate the pivot theorems. -/
def demoT : Tableau := [[2, 4], [6, 8]]

/-- The tableau `demoT` after pivoting at row 0, column 0. -/
def demoT2 : Tableau := [[1, 2], [0, -4]]

theorem pivot_unit_column_witness :
    Rect demoT ∧ pivoting demoT 0 0 = .ok demoT2 ∧
      ((∀ i < demoT.length, tget demoT2 i 0 = if i = 0 then 1 else 0) ∧
        (∀ j < ncols demoT, tget demoT2 0 j = tget demoT 0 j / tget demoT 0 0) ∧
        ∀ i < demoT.length, i ≠ 0 → ∀ j < ncols demoT,
          tget demoT2 i j = tget demoT i j - tget demoT i 0 * (tget demoT 0 j / tget demoT 0 0)) :=
  ⟨by decide, by rfl, pivot_unit_column demoT 0 0 demoT2 (by decide) (by rfl)⟩

/-- Tableau whose selector-chosen pivot element is positive but smaller than
machine epsilon. -/
def tinyPivotT : Tableau := [[1 / 2 ^ 60, 1], [-1, 0]]

/-- C9 counterexample: the selector picks the pivot `(0, 0)` whose value
`2 ^ (-60)` is strictly positive yet below machine epsilon, so `pivoting`
rejects it and the driver ends in an error rather than Optimal/Unbounded. -/
theorem tiny_pivot_error :
    WF tinyPivotT ∧ simplexTableau tinyPivotT = .ok (.Pivot 0 0) ∧
      pivoting tinyPivotT 0 0 = .error "The pivot is too close to zero" ∧
      simplexAlgorithmTableau 2 tinyPivotT = .error "The pivot is too close to zero" :=
  ⟨by decide, by rfl, by rfl, by rfl⟩

/-- C9 amended: a selector-chosen pivot always has in-range indices and a
strictly positive pivot element, and `pivoting` accepts it whenever that
element is at least machine epsilon; a positive pivot below machine epsilon is
rejected, so the driver can also end in an `InvalidPivot`-style error. -/
theorem selector_pivot_sound (t : Tableau) (p q : ℕ) (hw : WF t)
    (h : simplexTableau t = .ok (.Pivot p q)) :
    p < ncols t - 1 ∧ q < t.length - 1 ∧ 0 < tget t q p ∧
      (machEps ≤ tget t q p → pivoting t p q = .ok (pivotResult t p q)) := by
  obtain ⟨hm, hn, hr⟩ := hw
  have ht : 0 < t.length := by omega
  obtain ⟨hpE, hqA, hsne, ⟨v, hv⟩, hany⟩ := simplexTableau_pivot_inv h
  have hpcol : p < ncols t - 1 := by
    obtain ⟨c, hc, hcd⟩ := List.any_eq_true.mp hany
    have hlt : enteringCol t < (reducedCost t).length :=
      List.findIdx_lt_length_of_exists ⟨c, hc, hcd⟩
    rw [length_reducedCost hr ht] at hlt
    rw [hpE]
    exact hlt
  have hqlt : q < t.length - 1 := by
    rw [hqA, ← length_stepList t p]
    exact argmin_lt_length _ hsne
  have hstep := stepList_getD hr p hqlt
  rw [hv] at hstep
  by_cases hpos : 0 < tget t q p
  swap
  · rw [if_neg hpos] at hstep
    exact Option.noConfusion hstep
  refine ⟨hpcol, hqlt, hpos, fun he => ?_⟩
  exact pivoting_eq_ok (by omega) (by omega) (by rw [abs_of_pos hpos]; exact he)

theorem selector_pivot_sound_witness :
    WF scenarioThree ∧
      (1 < ncols scenarioThree - 1 ∧ 1 < scenarioThree.length - 1 ∧
        0 < tget scenarioThree 1 1 ∧
        (machEps ≤ tget scenarioThree 1 1 →
          pivoting scenarioThree 1 1 = .ok (pivotResult scenarioThree 1 1))) :=
  ⟨by decide, selector_pivot_sound scenarioThree 1 1 (by decide) (by rfl)⟩

theorem zipWith_fst {α β : Type} (l1 : List α) (l2 : List β) (h : l1.length ≤ l2.length) :
    List.zipWith (fun a _ => a) l1 l2 = l1 := by
  induction l1 generalizing l2 with
  | nil => simp
  | cons x xs ih =>
    cases l2 with
    | nil => simp at h
    | cons y ys =>
      simp only [List.zipWith_cons_cons, List.cons.injEq, true_and]
      exact ih ys (by simpa using h)

/-- C10: in exact arithmetic a pivot is idempotent at a fixed in-range
position with nonzero pivot entry — applying it a second time returns the same
tableau (including the degenerate case where the near-zero check rejects both
attempts identically) — and a successful pivot preserves the tableau's shape.
The embedding is purely functional, so the input tableau is never mutated. -/
theorem pivot_idempotent (t : Tableau) (p q : ℕ) (hr : Rect t) (hq : q < t.length)
    (hp : p < ncols t) (hnz : tget t q p ≠ 0) :
    ((pivoting t p q).bind fun u => pivoting u p q) = pivoting t p q ∧
      ∀ t2, pivoting t p q = .ok t2 →
        t2.length = t.length ∧ ∀ r ∈ t2, r.length = ncols t := by
  have hshape : ∀ t2, pivoting t p q = .ok t2 →
      t2.length = t.length ∧ ∀ r ∈ t2, r.length = ncols t := by
    intro t2 h2
    obtain ⟨_, _, _, ht2⟩ := pivoting_ok_inv h2
    subst ht2
    refine ⟨length_pivotResult t p q, fun r hmem => ?_⟩
    have hrl := rect_pivotResult hr hq r hmem
    rw [hrl, ncols_pivotResult hr hq]
  refine ⟨?_, hshape⟩
  by_cases he : |tget t q p| < machEps
  · have herr : pivoting t p q = .error "The pivot is too close to zero" := by
      unfold pivoting
      rw [if_neg (by omega), if_neg (by omega), if_pos he]
    rw [herr]
    rfl
  · have hok : pivoting t p q = .ok (pivotResult t p q) :=
      pivoting_eq_ok hq hp (not_lt.mp he)
    have hr2 : Rect (pivotResult t p q) := rect_pivotResult hr hq
    have hq2 : q < (pivotResult t p q).length := by rw [length_pivotResult]; exact hq
    have hnc2 : ncols (pivotResult t p q) = ncols t := ncols_pivotResult hr hq
    have hp2 : p < ncols (pivotResult t p q) := by rw [hnc2]; exact hp
    have hpv1 : tget (pivotResult t p q) q p = 1 := by
      rw [tget_pivotResult_pivotCol hr hq hp hnz hq, if_pos rfl]
    have he2 : machEps ≤ |tget (pivotResult t p q) q p| := by
      rw [hpv1]
      norm_num [machEps]
    have hok2 : pivoting (pivotResult t p q) p q =
        .ok (pivotResult (pivotResult t p q) p q) :=
      pivoting_eq_ok hq2 hp2 he2
    have hkey : pivotResult (pivotResult t p q) p q = pivotResult t p q := by
      apply List.ext_getElem
      · rw [length_pivotResult, length_pivotResult]
      intro i h1 h2
      have hi2 : i < (pivotResult t p q).length := h2
      have hit : i < t.length := by rw [length_pivotResult] at hi2; exact hi2
      rw [← getD_of_lt _ i [] h1, ← getD_of_lt _ i [] h2, pivotResult_row hi2]
      split
      case isTrue heq =>
        subst heq
        simp [hpv1]
      case isFalse hne =>
        have hzero : ((pivotResult t p q).getD i []).getD p 0 = 0 := by
          have hcol := tget_pivotResult_pivotCol hr hq hp hnz hit
          rw [if_neg hne] at hcol
          exact hcol
        rw [hzero, hpv1]
        have hfun : (fun (a b : ℚ) => a - 0 * b / 1) = fun a _ => a := by
          funext a b
          simp
        rw [hfun]
        apply zipWith_fst
        rw [rect_row_len hr2 hi2, rect_row_len hr2 hq2]
    rw [hok]
    show pivoting (pivotResult t p q) p q = Except.ok (pivotResult t p q)
    rw [hok2, hkey]

theorem pivot_idempotent_witness :
    tget demoT 0 0 ≠ 0 ∧
      (((pivoting demoT 0 0).bind fun u => pivoting u 0 0) = pivoting demoT 0 0 ∧
        ∀ t2, pivoting demoT 0 0 = .ok t2 →
          t2.length = demoT.length ∧ ∀ r ∈ t2, r.length = ncols demoT) :=
  ⟨by decide, pivot_idempotent demoT 0 0 (by decide) (by decide) (by decide) (by decide)⟩
